import Mathlib

/-!
Verification of the epubtts resumable chunked-conversion pipeline.

The development shallowly embeds the Python sources:
  * `src/text_processing.py`  — sentence extraction and chunking (strings as `List Char`);
  * `src/audio_utils.py`      — loudness normalization and WAV appending (samples as `List ℝ`);
  * `src/progress_manager.py` — checkpoint save/load (pickle modelled as a value-carrying file);
  * `src/audio_generator.py`  — the orchestrator main loop, modelled as a pure state-passing
    recursion over chapters and chunks that also emits a trace of per-chunk iteration records.
-/

namespace EpubTTS

/-! ## Text processing (`src/text_processing.py`)

Python strings are modelled as `List Char`.  `str.split()` (whitespace word
splitting), `str.strip()`, `str.split(".")`, `str.replace("\n", " ")` and
`" ".join` are each translated below.
-/

/-- Python whitespace characters (as recognised by `str.split()` / `str.strip()`). -/
def isSpc (c : Char) : Bool :=
  c = ' ' || c = '\t' || c = '\n' || c = '\r' || c = '\x0b' || c = '\x0c'

/-- Accumulator-based word splitter: `wordsAux l acc` processes `l` with the
partially built current word `acc`.  Mirrors Python `str.split()` (split on
whitespace runs, dropping empty words). -/
def wordsAux : List Char → List Char → List (List Char)
  | [], acc => if acc = [] then [] else [acc]
  | c :: cs, acc =>
    if isSpc c then
      if acc = [] then wordsAux cs [] else acc :: wordsAux cs []
    else
      wordsAux cs (acc ++ [c])

/-- Python `s.split()`: the list of whitespace-separated words of `s`. -/
def pyWords (l : List Char) : List (List Char) := wordsAux l []

/-- Python `len(s.split())`: number of whitespace-separated words. -/
def wordCount (l : List Char) : Nat := (pyWords l).length

/-- Python `text.replace("\n", " ")`. -/
def replaceNl (l : List Char) : List Char :=
  l.map fun c => if c = '\n' then ' ' else c

/-- Python `s.split(".")`: split on every occurrence of `'.'`; always nonempty
(`"".split(".") == [""]`). -/
def splitDot : List Char → List (List Char)
  | [] => [[]]
  | c :: cs =>
    match splitDot cs with
    | [] => [[]]
    | h :: t => if c = '.' then [] :: h :: t else (c :: h) :: t

/-- Python `s.strip()`: drop whitespace from both ends. -/
def pyStrip (l : List Char) : List Char :=
  ((l.dropWhile isSpc).reverse.dropWhile isSpc).reverse

/-- `extract_sentences` from `src/text_processing.py`: replace newlines by
spaces, split on periods, strip each part, drop empty parts, re-append the
period, and keep only sentences with at least 3 words. -/
def extract_sentences (text : List Char) : List (List Char) :=
  (splitDot (replaceNl text)).filterMap fun part =>
    let p := pyStrip part
    if p = [] then none
    else
      let s := p ++ ['.']
      if 3 ≤ wordCount s then some s else none

/-- Python `" ".join(parts)`. -/
def joinSp : List (List Char) → List Char
  | [] => []
  | [x] => x
  | x :: y :: t => x ++ ' ' :: joinSp (y :: t)

/-- The loop body of `chunk_text`: fold over the sentence list carrying the
in-progress chunk `cur` (a list of sentences) and its running word count
`size`, emitting finished chunks. -/
def chunkLoop (maxW : Nat) : List (List Char) → List (List Char) → Nat → List (List Char)
  | [], cur, _ => if cur = [] then [] else [joinSp cur]
  | s :: rest, cur, size =>
    let wc := wordCount s
    if maxW < wc then
      -- oversized sentence: flush the in-progress chunk, emit `s` standalone
      if cur = [] then s :: chunkLoop maxW rest [] 0
      else joinSp cur :: s :: chunkLoop maxW rest [] 0
    else if maxW < size + wc ∧ cur ≠ [] then
      joinSp cur :: chunkLoop maxW rest [s] wc
    else
      chunkLoop maxW rest (cur ++ [s]) (size + wc)

/-- `chunk_text` from `src/text_processing.py`. -/
def chunk_text (text : List Char) (maxW : Nat) : List (List Char) :=
  chunkLoop maxW (extract_sentences text) [] 0

/-- Specification mirror of `chunkLoop` that emits the grouped sentences
themselves instead of their space-joined rendering.  Used to express that
chunks are a partition of the retained sentences into consecutive groups. -/
def chunkLoopG (maxW : Nat) : List (List Char) → List (List Char) → Nat → List (List (List Char))
  | [], cur, _ => if cur = [] then [] else [cur]
  | s :: rest, cur, size =>
    let wc := wordCount s
    if maxW < wc then
      if cur = [] then [s] :: chunkLoopG maxW rest [] 0
      else cur :: [s] :: chunkLoopG maxW rest [] 0
    else if maxW < size + wc ∧ cur ≠ [] then
      cur :: chunkLoopG maxW rest [s] wc
    else
      chunkLoopG maxW rest (cur ++ [s]) (size + wc)

/-- The sentence groups underlying `chunk_text`. -/
def chunkGroups (text : List Char) (maxW : Nat) : List (List (List Char)) :=
  chunkLoopG maxW (extract_sentences text) [] 0

/-! ## Audio utilities (`src/audio_utils.py`)

Sample buffers are modelled as `List ℝ` (the idealisation of numpy float
arrays; the spec's "within floating-point tolerance" becomes exact equality
over ℝ).  The WAV file on disk is an `AFile`; a missing file is `none`.
-/

/-- `NORMALIZE_AUDIO_LEVEL` from `src/constants.py`.  Modelled from the spec:
`constants.py` itself is not in the sources, but the test-suite asserts
`NORMALIZE_AUDIO_LEVEL == -20.0` and the spec uses -20 dB as the target. -/
def NORMALIZE_AUDIO_LEVEL : ℝ := -20

/-- `np.sqrt(np.mean(audio_data**2))`: root-mean-square of a buffer. -/
noncomputable def rms (a : List ℝ) : ℝ :=
  Real.sqrt ((a.map fun x => x ^ 2).sum / a.length)

/-- `np.max(np.abs(a))` for nonempty `a` (with 0 as the fold base; absolute
values are nonnegative so this agrees with numpy on nonempty buffers). -/
def peakAbs (a : List ℝ) : ℝ :=
  (a.map fun x => |x|).foldr max 0

/-- The linear gain computed by `normalize_audio_level`:
`10 ** ((target_db - 20*log10(rms)) / 20)`. -/
noncomputable def gainOf (a : List ℝ) (target_db : ℝ) : ℝ :=
  (10 : ℝ) ^ ((target_db - 20 * Real.logb 10 (rms a)) / 20)

/-- The buffer after applying the naive gain, before any clipping correction. -/
noncomputable def preGain (a : List ℝ) (target_db : ℝ) : List ℝ :=
  a.map fun x => x * gainOf a target_db

/-- `normalize_audio_level` from `src/audio_utils.py`. -/
noncomputable def normalize_audio_level (a : List ℝ) (target_db : ℝ := NORMALIZE_AUDIO_LEVEL) :
    List ℝ :=
  if a.length = 0 then a
  else if rms a = 0 then a
  else
    let na := preGain a target_db
    let mx := peakAbs na
    if 0.95 < mx then na.map fun x => x * (0.95 / mx) else na

/-- A WAV file: its sample data and sample rate. -/
structure AFile where
  samples : List ℝ
  rate : ℕ

/-- `append_audio_to_wav` from `src/audio_utils.py`, as a function from the
previous file state (`none` = file does not exist) to the new file state.
The sample-rate mismatch warning is non-fatal and has no state effect; the
1-D flattening is the identity in this single-channel model. -/
noncomputable def append_audio_to_wav (file : Option AFile) (audio : List ℝ) (rate : ℕ)
    (is_first_chunk : Bool) : AFile :=
  let na := normalize_audio_level audio
  if is_first_chunk then ⟨na, rate⟩
  else
    match file with
    | none => ⟨na, rate⟩
    | some f => ⟨f.samples ++ na, rate⟩

/-- Pre-call sample count of an output path (0 when the file does not exist). -/
def preCount : Option AFile → ℕ
  | none => 0
  | some f => f.samples.length

/-! ## Checkpoint store (`src/progress_manager.py`)

The pickle serialisation is modelled at the value level: a checkpoint file on
disk either holds a valid record or is corrupt (fails to deserialize); a
missing file is `none`.
-/

/-- The progress record pickled by `save_progress`.  `timestamp` is the
`time.time()` value at save, passed explicitly in this pure model. -/
structure Chk where
  chapter_index : ℕ
  chunk_index : ℕ
  total_chunks : ℕ
  timestamp : ℕ
  selected_chapters : Option (List ℕ)
deriving DecidableEq, Repr

/-- Content of the checkpoint file: a deserializable record, or bytes that
fail to deserialize. -/
inductive PFile where
  | valid (c : Chk)
  | corrupt
deriving DecidableEq, Repr

/-- `save_progress` from `src/progress_manager.py`: the new content of the
checkpoint file (overwrites any prior content). -/
def save_progress (chapter_index chunk_index total_chunks : ℕ)
    (selected_chapters : Option (List ℕ)) (now : ℕ) : PFile :=
  PFile.valid ⟨chapter_index, chunk_index, total_chunks, now, selected_chapters⟩

/-- `load_progress` from `src/progress_manager.py`: `none` when the file is
missing, `none` when deserialization raises (caught), otherwise the record. -/
def load_progress : Option PFile → Option Chk
  | none => none
  | some PFile.corrupt => none
  | some (PFile.valid c) => some c

/-! ## Conversion orchestrator (`src/audio_generator.py`, `convert_text_to_audio`)

The main loop is embedded as a pure state-passing recursion.  The TTS backend
and the possibility of an I/O exception in the appender are abstracted by an
oracle `ℕ → ℕ → Res` giving, for each `(chapter_num, chunk_num)` pair, either
the synthesized samples or the exception raised inside the `try` block.  Each
chunk iteration emits an `IterRec` trace record.  Cancellation (`stop_audio`)
is never raised in this model, so the run always reaches the cleanup that
removes the progress file.
-/

/-- Outcome of one chunk's `try` block body: `backend.process_chunk` raised
(`synthErr`), `append_audio_to_wav` raised (`appendErr`), or both succeeded
with the given synthesized samples (`ok`). -/
inductive Res where
  | synthErr
  | appendErr
  | ok (samples : List ℝ)

/-- Mutable state threaded through the run: the output WAV file and the
checkpoint (progress) file, each `none` when absent on disk. -/
structure OState where
  output : Option AFile
  ckptFile : Option PFile

/-- Trace record of one chunk iteration of the main loop.  `chunkNum` is the
1-based chunk number from `enumerate(chunks[chunk_start:], chunk_start + 1)`;
`ckptBefore`/`ckptAfter` are the checkpoint file's content entering and
leaving the iteration. -/
structure IterRec where
  chapter : ℕ
  chunkNum : ℕ
  total : ℕ
  isFirst : Bool
  success : Bool
  ckptBefore : Option PFile
  ckptAfter : Option PFile
deriving DecidableEq, Repr

/-- One iteration of the inner chunk loop (the `try`/`except` body at
`audio_generator.py:166-189`).  On success the audio is appended and the
progress saved; on either exception the state is unchanged and the loop
moves on. -/
noncomputable def chunkIter (oracle : ℕ → ℕ → Res) (rate now : ℕ) (sel : List ℕ)
    (noCkpt : Bool) (chap total chunkNum : ℕ) (st : OState) : OState × IterRec :=
  let isFirst := chap == 0 && chunkNum == 1 && noCkpt
  match oracle chap chunkNum with
  | Res.ok audio =>
    let out := append_audio_to_wav st.output audio rate isFirst
    let ck := save_progress chap chunkNum total (some sel) now
    (⟨some out, some ck⟩, ⟨chap, chunkNum, total, isFirst, true, st.ckptFile, some ck⟩)
  | Res.synthErr => (st, ⟨chap, chunkNum, total, isFirst, false, st.ckptFile, st.ckptFile⟩)
  | Res.appendErr => (st, ⟨chap, chunkNum, total, isFirst, false, st.ckptFile, st.ckptFile⟩)

/-- The inner loop over the remaining chunks of one chapter, with `n` the
1-based number of the first chunk in the list. -/
noncomputable def chunksLoop (oracle : ℕ → ℕ → Res) (rate now : ℕ) (sel : List ℕ)
    (noCkpt : Bool) (chap total : ℕ) :
    List (List Char) → ℕ → OState → OState × List IterRec
  | [], _, st => (st, [])
  | _ :: rest, n, st =>
    let p := chunkIter oracle rate now sel noCkpt chap total n st
    let q := chunksLoop oracle rate now sel noCkpt chap total rest (n + 1) p.1
    (q.1, p.2 :: q.2)

/-- The outer loop over the chapters from the resume chapter onward.
`startChunk` applies to the first chapter in the list only (`start_chunk` is
reset to 0 at the end of each chapter iteration). -/
noncomputable def chaptersLoop (oracle : ℕ → ℕ → Res) (rate now : ℕ) (sel : List ℕ)
    (noCkpt : Bool) (maxW : ℕ) :
    List (List Char) → ℕ → ℕ → OState → OState × List IterRec
  | [], _, _, st => (st, [])
  | ch :: rest, chapNum, startChunk, st =>
    let chunks := chunk_text ch maxW
    let p := chunksLoop oracle rate now sel noCkpt chapNum chunks.length
      (chunks.drop startChunk) (startChunk + 1) st
    let q := chaptersLoop oracle rate now sel noCkpt maxW rest (chapNum + 1) 0 p.1
    (q.1, p.2 ++ q.2)

/-- `convert_text_to_audio`'s chunk-processing phase (`audio_generator.py:113-204`):
load the progress file, resolve the resume point, run the chapter loop, and
remove the progress file on completion.  `chapters` is the selected chapter
list (post chapter-selection), `sel` the sorted selected indices saved in
every checkpoint, `now` the save timestamp.  The chapter-selection phase of
the same source function (lines 82-110) precedes this; the whole function
including that phase is `convert_text_to_audio_full` below. -/
noncomputable def convert_text_to_audio (oracle : ℕ → ℕ → Res)
    (chapters : List (List Char)) (maxW rate now : ℕ) (sel : List ℕ) (st : OState) :
    OState × List IterRec :=
  let progress := load_progress st.ckptFile
  let start_chapter := (progress.map Chk.chapter_index).getD 0
  let start_chunk := (progress.map Chk.chunk_index).getD 0
  let p := chaptersLoop oracle rate now sel progress.isNone maxW
    (chapters.drop start_chapter) start_chapter start_chunk st
  (⟨p.1.output, none⟩, p.2)

/-- `existing_progress.get("selected_chapters") if existing_progress else None`
(`audio_generator.py:83-85`). -/
def selectionOf : Option Chk → Option (List ℕ)
  | none => none
  | some p => p.selected_chapters

/-- The whole of `convert_text_to_audio` (`audio_generator.py:52-209`),
chapter-selection phase included.  If reselection is requested or no prior
selection is loadable (Python `reselect_chapters or not existing_selection`,
where `None` and `[]` are both falsy), `interactive_chapter_selection` runs:
whichever selection UI it delegates to saves
`save_progress(progress_file, 0, 0, 0, sorted(selected_indices))` before
returning (`chapter_selector.py:146-149, 257-259`) and returns the chapters
at the sorted selected indices.  Otherwise the stored selection (saved
sorted) is reused to filter the chapter list.  `userSel` is the sorted index
list the selection UI would return (user input is external); out-of-range
stored indices are skipped where Python would raise. -/
noncomputable def convert_text_to_audio_full (oracle : ℕ → ℕ → Res)
    (chapters : List (List Char)) (maxW rate now : ℕ)
    (reselect_chapters : Bool) (userSel : List ℕ) (st : OState) : OState × List IterRec :=
  if reselect_chapters = true ∨ selectionOf (load_progress st.ckptFile) = none ∨
      selectionOf (load_progress st.ckptFile) = some [] then
    convert_text_to_audio oracle (userSel.filterMap fun i => chapters.get? i) maxW rate now
      userSel ⟨st.output, some (save_progress 0 0 0 (some userSel) now)⟩
  else
    convert_text_to_audio oracle
      (((selectionOf (load_progress st.ckptFile)).getD []).filterMap fun i => chapters.get? i)
      maxW rate now ((selectionOf (load_progress st.ckptFile)).getD []) st

/-- The `(chapter_num, chunk_num)` pairs of a trace. -/
def tracePairs (trace : List IterRec) : List (ℕ × ℕ) :=
  trace.map fun e => (e.chapter, e.chunkNum)

/-- The 1-based chunk numbers attempted in one chapter whose chunk list has
length `total`, starting from 0-based position `startChunk`. -/
def chapterPairs (chapNum startChunk total : ℕ) : List (ℕ × ℕ) :=
  (List.range (total - startChunk)).map fun k => (chapNum, startChunk + 1 + k)

/-- The `(chapter, chunkNum)` pairs a run attempts, chapter by chapter. -/
def expectedPairsAux (maxW : ℕ) : List (List Char) → ℕ → ℕ → List (ℕ × ℕ)
  | [], _, _ => []
  | ch :: rest, chapNum, startChunk =>
    chapterPairs chapNum startChunk (chunk_text ch maxW).length ++
      expectedPairsAux maxW rest (chapNum + 1) 0

/-- The `(chapter, chunkNum)` pairs a run resuming at `(startChapter,
startChunk)` attempts. -/
def expectedPairs (chapters : List (List Char)) (maxW startChapter startChunk : ℕ) :
    List (ℕ × ℕ) :=
  expectedPairsAux maxW (chapters.drop startChapter) startChapter startChunk

/-! ## Lemmas about word splitting -/

lemma wordsAux_append_space (x : List Char) :
    ∀ (acc y : List Char), wordsAux (x ++ ' ' :: y) acc = wordsAux x acc ++ wordsAux y [] := by
  induction x with
  | nil =>
    intro acc y
    by_cases h : acc = [] <;> simp [wordsAux, isSpc, h]
  | cons c cs ih =>
    intro acc y
    by_cases h : isSpc c
    · by_cases h2 : acc = [] <;> simp [wordsAux, h, h2, ih]
    · simp [wordsAux, h, ih]

lemma wordCount_append_space (x y : List Char) :
    wordCount (x ++ ' ' :: y) = wordCount x + wordCount y := by
  simp [wordCount, pyWords, wordsAux_append_space]

lemma wordCount_joinSp : ∀ l : List (List Char), wordCount (joinSp l) = (l.map wordCount).sum
  | [] => by simp [joinSp, wordCount, pyWords, wordsAux]
  | [x] => by simp [joinSp]
  | x :: y :: t => by
    have h : joinSp (x :: y :: t) = x ++ ' ' :: joinSp (y :: t) := rfl
    rw [h, wordCount_append_space, wordCount_joinSp (y :: t)]
    simp

/-! ## Lemmas about the chunker -/

@[simp] lemma joinSp_singleton (x : List Char) : joinSp [x] = x := rfl

lemma chunkLoop_eq_map (maxW : ℕ) :
    ∀ (ss cur : List (List Char)) (size : ℕ),
      chunkLoop maxW ss cur size = (chunkLoopG maxW ss cur size).map joinSp := by
  intro ss
  induction ss with
  | nil =>
    intro cur size
    by_cases h : cur = [] <;> simp [chunkLoop, chunkLoopG, h]
  | cons s rest ih =>
    intro cur size
    by_cases h1 : maxW < wordCount s
    · by_cases h2 : cur = [] <;> simp [chunkLoop, chunkLoopG, h1, h2, ih]
    · by_cases h2 : maxW < size + wordCount s ∧ cur ≠ [] <;>
        simp [chunkLoop, chunkLoopG, h1, h2, ih]

lemma chunkLoopG_join (maxW : ℕ) :
    ∀ (ss cur : List (List Char)) (size : ℕ),
      (chunkLoopG maxW ss cur size).flatten = cur ++ ss := by
  intro ss
  induction ss with
  | nil =>
    intro cur size
    by_cases h : cur = [] <;> simp [chunkLoopG, h]
  | cons s rest ih =>
    intro cur size
    by_cases h1 : maxW < wordCount s
    · by_cases h2 : cur = [] <;> simp [chunkLoopG, h1, h2, ih]
    · by_cases h2 : maxW < size + wordCount s ∧ cur ≠ [] <;>
        simp [chunkLoopG, h1, h2, ih]

lemma chunkLoopG_ne_nil (maxW : ℕ) :
    ∀ (ss cur : List (List Char)) (size : ℕ) (g : List (List Char)),
      g ∈ chunkLoopG maxW ss cur size → g ≠ [] := by
  intro ss
  induction ss with
  | nil =>
    intro cur size g hg
    by_cases h : cur = [] <;> simp [chunkLoopG, h] at hg
    subst hg; exact h
  | cons s rest ih =>
    intro cur size g hg
    by_cases h1 : maxW < wordCount s
    · by_cases h2 : cur = [] <;> simp [chunkLoopG, h1, h2] at hg
      · rcases hg with hg | hg
        · subst hg; simp
        · exact ih [] 0 g hg
      · rcases hg with hg | hg | hg
        · subst hg; exact h2
        · subst hg; simp
        · exact ih [] 0 g hg
    · by_cases h2 : maxW < size + wordCount s ∧ cur ≠ [] <;>
        simp [chunkLoopG, h1, h2] at hg
      · rcases hg with hg | hg
        · subst hg; exact h2.2
        · exact ih [s] (wordCount s) g hg
      · exact ih (cur ++ [s]) (size + wordCount s) g hg

lemma chunkLoop_wordCount_le (maxW : ℕ) :
    ∀ (ss cur : List (List Char)) (size : ℕ),
      size = (cur.map wordCount).sum → size ≤ maxW →
      ∀ ch ∈ chunkLoop maxW ss cur size,
        wordCount ch ≤ maxW ∨ (ch ∈ ss ∧ maxW < wordCount ch) := by
  intro ss
  induction ss with
  | nil =>
    intro cur size hsz hle ch hch
    by_cases h : cur = [] <;> simp [chunkLoop, h] at hch
    subst hch
    exact Or.inl (by rw [wordCount_joinSp, ← hsz]; exact hle)
  | cons s rest ih =>
    intro cur size hsz hle ch hch
    by_cases h1 : maxW < wordCount s
    · by_cases h2 : cur = [] <;> simp [chunkLoop, h1, h2] at hch
      · rcases hch with hch | hch
        · subst hch; exact Or.inr ⟨List.mem_cons_self _ _, h1⟩
        · rcases ih [] 0 (by simp) (Nat.zero_le _) ch hch with h | ⟨hm, hw⟩
          · exact Or.inl h
          · exact Or.inr ⟨List.mem_cons_of_mem _ hm, hw⟩
      · rcases hch with hch | hch | hch
        · subst hch
          exact Or.inl (by rw [wordCount_joinSp, ← hsz]; exact hle)
        · subst hch; exact Or.inr ⟨List.mem_cons_self _ _, h1⟩
        · rcases ih [] 0 (by simp) (Nat.zero_le _) ch hch with h | ⟨hm, hw⟩
          · exact Or.inl h
          · exact Or.inr ⟨List.mem_cons_of_mem _ hm, hw⟩
    · by_cases h2 : maxW < size + wordCount s ∧ cur ≠ [] <;>
        simp [chunkLoop, h1, h2] at hch
      · rcases hch with hch | hch
        · subst hch
          exact Or.inl (by rw [wordCount_joinSp, ← hsz]; exact hle)
        · rcases ih [s] (wordCount s) (by simp) (Nat.not_lt.mp h1) ch hch with h | ⟨hm, hw⟩
          · exact Or.inl h
          · exact Or.inr ⟨List.mem_cons_of_mem _ hm, hw⟩
      · have hle' : size + wordCount s ≤ maxW := by
          by_cases h3 : maxW < size + wordCount s
          · have hcur : cur = [] := by
              by_contra hc
              exact h2 ⟨h3, hc⟩
            subst hcur
            simp at hsz
            subst hsz
            simpa using Nat.not_lt.mp h1
          · exact Nat.not_lt.mp h3
        rcases ih (cur ++ [s]) (size + wordCount s) (by simp [hsz]) hle' ch hch with
          h | ⟨hm, hw⟩
        · exact Or.inl h
        · exact Or.inr ⟨List.mem_cons_of_mem _ hm, hw⟩

lemma chunkLoop_oversized_mem (maxW : ℕ) :
    ∀ (ss cur : List (List Char)) (size : ℕ) (s : List Char),
      s ∈ ss → maxW < wordCount s → s ∈ chunkLoop maxW ss cur size := by
  intro ss
  induction ss with
  | nil => intro cur size s hs; simp at hs
  | cons s0 rest ih =>
    intro cur size s hs hw
    rcases List.mem_cons.mp hs with rfl | hs
    · by_cases h2 : cur = [] <;> simp [chunkLoop, hw, h2]
    · by_cases h1 : maxW < wordCount s0
      · by_cases h2 : cur = [] <;> simp [chunkLoop, h1, h2]
        · exact Or.inr (ih [] 0 s hs hw)
        · exact Or.inr (Or.inr (ih [] 0 s hs hw))
      · by_cases h2 : maxW < size + wordCount s0 ∧ cur ≠ [] <;>
          simp [chunkLoop, h1, h2]
        · exact Or.inr (ih [s0] (wordCount s0) s hs hw)
        · exact ih (cur ++ [s0]) (size + wordCount s0) s hs hw

/-! ## Claim theorems: chunker -/

/-- C3: For every input text and every maxWords ≥ 1, the chunks returned by
`chunk_text` are exactly the space-joinings of a partition of the retained
sentences (`extract_sentences text`) into consecutive nonempty groups:
concatenating the chunks, in order, reconstructs the sequence of retained
sentences, each appearing exactly once, whole, in original order, with no
chunk boundary inside a sentence. -/
theorem chunk_text_reconstructs_sentences (text : List Char) (maxW : ℕ) (_h : 1 ≤ maxW) :
    chunk_text text maxW = (chunkGroups text maxW).map joinSp ∧
    (chunkGroups text maxW).flatten = extract_sentences text ∧
    ∀ g ∈ chunkGroups text maxW, g ≠ [] := by
  refine ⟨chunkLoop_eq_map maxW _ [] 0, ?_, fun g hg => chunkLoopG_ne_nil maxW _ [] 0 g hg⟩
  simpa using chunkLoopG_join maxW (extract_sentences text) [] 0

theorem chunk_text_reconstructs_sentences_witness :
    1 ≤ 3 ∧
    (chunk_text ("One two three. Four five six seven.".data) 3 =
        (chunkGroups ("One two three. Four five six seven.".data) 3).map joinSp ∧
      (chunkGroups ("One two three. Four five six seven.".data) 3).flatten =
        extract_sentences ("One two three. Four five six seven.".data) ∧
      ∀ g ∈ chunkGroups ("One two three. Four five six seven.".data) 3, g ≠ []) :=
  ⟨by decide, chunk_text_reconstructs_sentences ("One two three. Four five six seven.".data) 3
    (by decide)⟩

/-- C4: For every input text and every maxWords ≥ 1, every chunk has word
count ≤ maxWords except a chunk that is itself a single retained sentence
whose own word count exceeds maxWords; moreover every such oversized sentence
is emitted as its own standalone chunk. -/
theorem chunk_text_size_bound (text : List Char) (maxW : ℕ) (_h : 1 ≤ maxW) :
    (∀ ch ∈ chunk_text text maxW,
        wordCount ch ≤ maxW ∨ (ch ∈ extract_sentences text ∧ maxW < wordCount ch)) ∧
    ∀ s ∈ extract_sentences text, maxW < wordCount s → s ∈ chunk_text text maxW := by
  constructor
  · exact fun ch hch =>
      chunkLoop_wordCount_le maxW (extract_sentences text) [] 0 (by simp) (Nat.zero_le _) ch hch
  · exact fun s hs hw => chunkLoop_oversized_mem maxW (extract_sentences text) [] 0 s hs hw

theorem chunk_text_size_bound_witness :
    1 ≤ 3 ∧
    "One two three four five.".data ∈
      chunk_text ("One two three four five. Six seven eight.".data) 3 :=
  ⟨by decide,
    (chunk_text_size_bound ("One two three four five. Six seven eight.".data) 3 (by decide)).2
      ("One two three four five.".data) (by decide) (by decide)⟩

/-! ## Lemmas about audio normalization -/

lemma rms_nonneg (a : List ℝ) : 0 ≤ rms a := Real.sqrt_nonneg _

lemma gainOf_pos (a : List ℝ) (t : ℝ) : 0 < gainOf a t :=
  Real.rpow_pos_of_pos (by norm_num) _

lemma sum_sq_map_mul (l : List ℝ) (g : ℝ) :
    ((l.map fun x => x * g).map fun x => x ^ 2).sum = g ^ 2 * (l.map fun x => x ^ 2).sum := by
  induction l with
  | nil => simp
  | cons x l ih =>
    simp only [List.map_map] at ih
    simp only [List.map_cons, List.sum_cons, List.map_map, ih]
    ring

lemma rms_map_mul (l : List ℝ) (g : ℝ) : rms (l.map fun x => x * g) = |g| * rms l := by
  unfold rms
  rw [sum_sq_map_mul, List.length_map, mul_div_assoc, Real.sqrt_mul (sq_nonneg g),
    Real.sqrt_sq_eq_abs]

lemma peakAbs_map_mul (l : List ℝ) (c : ℝ) (hc : 0 ≤ c) :
    peakAbs (l.map fun x => x * c) = c * peakAbs l := by
  unfold peakAbs
  induction l with
  | nil => simp
  | cons x l ih =>
    simp only [List.map_cons, List.foldr_cons, ih]
    rw [abs_mul, abs_of_nonneg hc, mul_comm |x| c, mul_max_of_nonneg _ _ hc]

lemma normalize_eq (a : List ℝ) (t : ℝ) (h1 : ¬ a.length = 0) (h2 : rms a ≠ 0) :
    normalize_audio_level a t =
      if 0.95 < peakAbs (preGain a t) then
        (preGain a t).map fun x => x * (0.95 / peakAbs (preGain a t))
      else preGain a t := by
  unfold normalize_audio_level
  rw [if_neg h1, if_neg h2]

lemma normalize_length (a : List ℝ) (t : ℝ) :
    (normalize_audio_level a t).length = a.length := by
  by_cases h1 : a.length = 0
  · unfold normalize_audio_level
    rw [if_pos h1]
  · by_cases h2 : rms a = 0
    · unfold normalize_audio_level
      rw [if_neg h1, if_pos h2]
    · rw [normalize_eq a t h1 h2]
      split_ifs <;> simp [preGain]

lemma rms_eq_zero_of_len_zero (a : List ℝ) (h : a.length = 0) : rms a = 0 := by
  rw [List.length_eq_zero.mp h]
  simp [rms]

lemma gainOf_mul_rms (a : List ℝ) (t : ℝ) (h : rms a ≠ 0) :
    gainOf a t * rms a = (10 : ℝ) ^ (t / 20) := by
  have hpos : 0 < rms a := lt_of_le_of_ne (rms_nonneg a) (Ne.symm h)
  unfold gainOf
  rw [show (t - 20 * Real.logb 10 (rms a)) / 20 = t / 20 - Real.logb 10 (rms a) by ring,
    Real.rpow_sub (by norm_num), Real.rpow_logb (by norm_num) (by norm_num) hpos]
  field_simp

lemma rms_preGain (a : List ℝ) (t : ℝ) (h : rms a ≠ 0) :
    rms (preGain a t) = (10 : ℝ) ^ (t / 20) := by
  unfold preGain
  rw [rms_map_mul, abs_of_pos (gainOf_pos a t)]
  exact gainOf_mul_rms a t h

/-! ## Claim theorems: audio -/

/-- C10: the loudness normalizer never changes the buffer length (including
for the empty buffer), which is what makes the appender's sample-count
invariant hold even though it normalizes internally. -/
theorem normalize_audio_level_preserves_length (a : List ℝ) (t : ℝ) :
    (normalize_audio_level a t).length = a.length :=
  normalize_length a t

/-- C5, counterexample: a call to the appender with `is_first_chunk = true`
on an existing 1-sample file and a 1-sample buffer overwrites the file, so
the post-call sample count is 1, not the pre-call count plus the appended
length (2); the claim quantified over *every* call on an existing file is
therefore false. -/
theorem append_audio_to_wav_count_counterexample :
    ¬ ((append_audio_to_wav (some ⟨[0], 16000⟩) [0] 16000 true).samples.length =
        preCount (some ⟨[0], 16000⟩) + ([(0 : ℝ)] : List ℝ).length) := by
  simp [append_audio_to_wav, preCount, normalize_length]

/-- C5, amended: for every call to the appender with `is_first_chunk = false`
(the append path), the post-call sample count is the pre-call sample count
(0 for a missing file) plus the length of the appended samples; in
particular, appending a 500-sample first chunk to a fresh path and then a
300-sample second chunk yields a file of exactly 800 samples. -/
theorem append_audio_to_wav_sample_count :
    (∀ (file : Option AFile) (audio : List ℝ) (rate : ℕ),
      (append_audio_to_wav file audio rate false).samples.length =
        preCount file + audio.length) ∧
    ∀ (a b : List ℝ) (r : ℕ), a.length = 500 → b.length = 300 →
      (append_audio_to_wav (some (append_audio_to_wav none a r true)) b r false).samples.length
        = 800 := by
  constructor
  · intro file audio rate
    cases file <;> simp [append_audio_to_wav, preCount, normalize_length]
  · intro a b r ha hb
    simp [append_audio_to_wav, preCount, normalize_length, ha, hb]

theorem append_audio_to_wav_sample_count_witness :
    (append_audio_to_wav
        (some (append_audio_to_wav none (List.replicate 500 (0 : ℝ)) 22050 true))
        (List.replicate 300 (0 : ℝ)) 22050 false).samples.length = 800 :=
  append_audio_to_wav_sample_count.2 _ _ 22050 (List.length_replicate _ _)
    (List.length_replicate _ _)

/-- C9: silence (zero RMS) is returned unchanged; for non-silent input, if
the naive gain drives the peak absolute sample above 0.95 the output is
rescaled so its peak is exactly 0.95, and otherwise the output's RMS is
exactly the target RMS `10^(target_db/20)` (exact over ℝ; the code's
"floating-point tolerance" is the ℝ-idealisation of this equality). -/
theorem normalize_audio_level_spec (a : List ℝ) (t : ℝ) :
    (rms a = 0 → normalize_audio_level a t = a) ∧
    (rms a ≠ 0 → 0.95 < peakAbs (preGain a t) →
      peakAbs (normalize_audio_level a t) = 0.95) ∧
    (rms a ≠ 0 → peakAbs (preGain a t) ≤ 0.95 →
      rms (normalize_audio_level a t) = (10 : ℝ) ^ (t / 20)) := by
  refine ⟨?_, ?_, ?_⟩
  · intro h
    unfold normalize_audio_level
    split_ifs <;> rfl
  · intro h hp
    have hlen : ¬ a.length = 0 := fun hl => h (rms_eq_zero_of_len_zero a hl)
    have hmx : (0 : ℝ) < peakAbs (preGain a t) := lt_trans (by norm_num) hp
    rw [normalize_eq a t hlen h, if_pos hp,
      peakAbs_map_mul _ _ (div_nonneg (by norm_num) (le_of_lt hmx)),
      div_mul_cancel₀ _ (ne_of_gt hmx)]
  · intro h hp
    have hlen : ¬ a.length = 0 := fun hl => h (rms_eq_zero_of_len_zero a hl)
    rw [normalize_eq a t hlen h, if_neg (not_lt.mpr hp)]
    exact rms_preGain a t h

theorem normalize_audio_level_spec_witness :
    normalize_audio_level [(0 : ℝ)] (-20) = [0] ∧
    rms (normalize_audio_level [(1 : ℝ)] (-20)) = (10 : ℝ) ^ ((-20 : ℝ) / 20) := by
  have hr : rms [(1 : ℝ)] = 1 := by simp [rms]
  constructor
  · exact (normalize_audio_level_spec [0] (-20)).1 (by simp [rms])
  · refine (normalize_audio_level_spec [1] (-20)).2.2 (by rw [hr]; norm_num) ?_
    have hg : gainOf [(1 : ℝ)] (-20) = (10 : ℝ) ^ ((-1 : ℝ)) := by
      unfold gainOf
      rw [hr, Real.logb_one]
      norm_num
    have hg10 : gainOf [(1 : ℝ)] (-20) = (10 : ℝ)⁻¹ := by
      rw [hg, Real.rpow_neg (by norm_num), Real.rpow_one]
    simp only [preGain, List.map_cons, List.map_nil, peakAbs, hg10]
    norm_num [abs_of_nonneg]

/-! ## Claim theorems: checkpoint store -/

/-- C7: saving a checkpoint and loading it back returns a record equal to
what was saved, including a populated timestamp; in particular for
`(chapterIndex=2, chunkIndex=5, totalChunks=10, selected=[1,2,3])`. -/
theorem save_load_round_trip :
    (∀ (ch ck tot : ℕ) (sel : Option (List ℕ)) (now : ℕ),
      load_progress (some (save_progress ch ck tot sel now)) = some ⟨ch, ck, tot, now, sel⟩) ∧
    ∀ now : ℕ,
      load_progress (some (save_progress 2 5 10 (some [1, 2, 3]) now)) =
        some ⟨2, 5, 10, now, some [1, 2, 3]⟩ :=
  ⟨fun _ _ _ _ _ => rfl, fun _ => rfl⟩

/-- C8: loading returns absent (`none`), never an error, both when the
checkpoint file is missing and when its content fails to deserialize. -/
theorem load_progress_absent_on_missing_or_corrupt :
    load_progress none = none ∧ load_progress (some PFile.corrupt) = none :=
  ⟨rfl, rfl⟩

/-! ## Lemmas about the orchestrator loop -/

lemma chunksLoop_mem (oracle : ℕ → ℕ → Res) (rate now : ℕ) (sel : List ℕ) (noCkpt : Bool)
    (chap total : ℕ) :
    ∀ (l : List (List Char)) (n : ℕ) (st : OState) (e : IterRec),
      e ∈ (chunksLoop oracle rate now sel noCkpt chap total l n st).2 →
      e.chapter = chap ∧ e.total = total ∧
      e.isFirst = (chap == 0 && e.chunkNum == 1 && noCkpt) ∧
      (e.success = true →
        e.ckptAfter = some (save_progress chap e.chunkNum e.total (some sel) now)) ∧
      (e.success = false → e.ckptAfter = e.ckptBefore) := by
  intro l
  induction l with
  | nil => intro n st e he; simp [chunksLoop] at he
  | cons x rest ih =>
    intro n st e he
    simp only [chunksLoop] at he
    rcases List.mem_cons.mp he with rfl | he
    · cases h : oracle chap n <;> simp [chunkIter, h]
    · exact ih (n + 1) _ e he

lemma chaptersLoop_mem (oracle : ℕ → ℕ → Res) (rate now : ℕ) (sel : List ℕ) (noCkpt : Bool)
    (maxW : ℕ) :
    ∀ (chs : List (List Char)) (chapNum startChunk : ℕ) (st : OState) (e : IterRec),
      e ∈ (chaptersLoop oracle rate now sel noCkpt maxW chs chapNum startChunk st).2 →
      e.isFirst = (e.chapter == 0 && e.chunkNum == 1 && noCkpt) ∧
      (e.success = true →
        e.ckptAfter = some (save_progress e.chapter e.chunkNum e.total (some sel) now)) ∧
      (e.success = false → e.ckptAfter = e.ckptBefore) := by
  intro chs
  induction chs with
  | nil => intro _ _ _ e he; simp [chaptersLoop] at he
  | cons ch rest ih =>
    intro chapNum startChunk st e he
    simp only [chaptersLoop] at he
    rcases List.mem_append.mp he with he | he
    · obtain ⟨h1, _h2, h3, h4, h5⟩ := chunksLoop_mem oracle rate now sel noCkpt chapNum _ _ _ _ e he
      subst h1
      exact ⟨h3, h4, h5⟩
    · exact ih (chapNum + 1) 0 _ e he

lemma convert_mem (oracle : ℕ → ℕ → Res) (chapters : List (List Char))
    (maxW rate now : ℕ) (sel : List ℕ) (st : OState) (e : IterRec)
    (he : e ∈ (convert_text_to_audio oracle chapters maxW rate now sel st).2) :
    e.isFirst = (e.chapter == 0 && e.chunkNum == 1 && (load_progress st.ckptFile).isNone) ∧
    (e.success = true →
      e.ckptAfter = some (save_progress e.chapter e.chunkNum e.total (some sel) now)) ∧
    (e.success = false → e.ckptAfter = e.ckptBefore) := by
  simp only [convert_text_to_audio] at he
  exact chaptersLoop_mem oracle rate now sel _ maxW _ _ _ _ e he

lemma chunksLoop_pairs (oracle : ℕ → ℕ → Res) (rate now : ℕ) (sel : List ℕ) (noCkpt : Bool)
    (chap total : ℕ) :
    ∀ (l : List (List Char)) (n : ℕ) (st : OState),
      tracePairs (chunksLoop oracle rate now sel noCkpt chap total l n st).2 =
        (List.range l.length).map fun k => (chap, n + k) := by
  intro l
  induction l with
  | nil => intro n st; simp [chunksLoop, tracePairs]
  | cons x rest ih =>
    intro n st
    have h2 := ih (n + 1) (chunkIter oracle rate now sel noCkpt chap total n st).1
    simp only [chunksLoop, tracePairs, List.map_cons, List.length_cons] at h2 ⊢
    rw [h2, List.range_succ_eq_map, List.map_cons, List.map_map]
    refine congrArg₂ List.cons ?_ ?_
    · cases h : oracle chap n <;> simp [chunkIter, h]
    · refine List.map_congr_left fun k _ => ?_
      simp only [Function.comp_apply, Prod.mk.injEq, true_and]
      omega

lemma chaptersLoop_pairs (oracle : ℕ → ℕ → Res) (rate now : ℕ) (sel : List ℕ) (noCkpt : Bool)
    (maxW : ℕ) :
    ∀ (chs : List (List Char)) (chapNum startChunk : ℕ) (st : OState),
      tracePairs (chaptersLoop oracle rate now sel noCkpt maxW chs chapNum startChunk st).2 =
        expectedPairsAux maxW chs chapNum startChunk := by
  intro chs
  induction chs with
  | nil => intro _ _ _; simp [chaptersLoop, expectedPairsAux, tracePairs]
  | cons ch rest ih =>
    intro chapNum startChunk st
    simp only [chaptersLoop, expectedPairsAux, tracePairs, List.map_append]
    rw [show (List.map (fun e => (e.chapter, e.chunkNum))
        (chaptersLoop oracle rate now sel noCkpt maxW rest (chapNum + 1) 0 _).2) =
        expectedPairsAux maxW rest (chapNum + 1) 0 from ih (chapNum + 1) 0 _]
    congr 1
    have h1 := chunksLoop_pairs oracle rate now sel noCkpt chapNum
      (chunk_text ch maxW).length ((chunk_text ch maxW).drop startChunk) (startChunk + 1) st
    simp only [tracePairs] at h1
    rw [h1, chapterPairs, List.length_drop]

lemma convert_pairs (oracle : ℕ → ℕ → Res) (chapters : List (List Char))
    (maxW rate now : ℕ) (sel : List ℕ) (st : OState) :
    tracePairs (convert_text_to_audio oracle chapters maxW rate now sel st).2 =
      expectedPairs chapters maxW
        (((load_progress st.ckptFile).map Chk.chapter_index).getD 0)
        (((load_progress st.ckptFile).map Chk.chunk_index).getD 0) := by
  simp only [convert_text_to_audio, expectedPairs]
  exact chaptersLoop_pairs oracle rate now sel _ maxW _ _ _ _

lemma expectedPairsAux_ge (maxW : ℕ) :
    ∀ (chs : List (List Char)) (chapNum startChunk : ℕ) (p : ℕ × ℕ),
      p ∈ expectedPairsAux maxW chs chapNum startChunk →
      chapNum ≤ p.1 ∧ (p.1 = chapNum → startChunk + 1 ≤ p.2) := by
  intro chs
  induction chs with
  | nil => intro _ _ p hp; simp [expectedPairsAux] at hp
  | cons ch rest ih =>
    intro chapNum startChunk p hp
    simp only [expectedPairsAux] at hp
    rcases List.mem_append.mp hp with hp | hp
    · simp only [chapterPairs, List.mem_map, List.mem_range] at hp
      obtain ⟨k, _hk, rfl⟩ := hp
      exact ⟨le_refl _, fun _ => by omega⟩
    · have h := ih (chapNum + 1) 0 p hp
      exact ⟨by omega, fun hc => by omega⟩

/-! ## Claim theorems: orchestrator -/

/-- C1: after a chunk at 0-based position i of chapter c succeeds, the saved
checkpoint records `chunk_index = i + 1` (the 1-based `chunk_num`, the
successor of the completed chunk); a run resumed from a checkpoint `(c, K)`
attempts exactly the pairs `expectedPairs` — chapter ≥ c, and within chapter
c only 1-based chunk numbers ≥ K + 1, i.e. 0-based positions ≥ K — so a
completed chunk is never replayed. -/
theorem convert_checkpoint_successor (oracle : ℕ → ℕ → Res) (chapters : List (List Char))
    (maxW rate now : ℕ) (sel : List ℕ) (st : OState)
    (output0 : Option AFile) (c K tot ts : ℕ) (selc : Option (List ℕ)) :
    (∀ e ∈ (convert_text_to_audio oracle chapters maxW rate now sel st).2,
        e.success = true →
        e.ckptAfter = some (save_progress e.chapter e.chunkNum e.total (some sel) now)) ∧
    (tracePairs (convert_text_to_audio oracle chapters maxW rate now sel
        ⟨output0, some (PFile.valid ⟨c, K, tot, ts, selc⟩)⟩).2 =
      expectedPairs chapters maxW c K) ∧
    (∀ p ∈ expectedPairs chapters maxW c K, c ≤ p.1 ∧ (p.1 = c → K + 1 ≤ p.2)) := by
  refine ⟨?_, ?_, ?_⟩
  · intro e he hs
    exact (convert_mem oracle chapters maxW rate now sel st e he).2.1 hs
  · have h := convert_pairs oracle chapters maxW rate now sel
      ⟨output0, some (PFile.valid ⟨c, K, tot, ts, selc⟩)⟩
    simpa [load_progress] using h
  · intro p hp
    simp only [expectedPairs] at hp
    exact expectedPairsAux_ge maxW _ c K p hp

theorem convert_checkpoint_successor_witness :
    ((⟨0, 1, 1, true, true, none, some (save_progress 0 1 1 (some [0]) 7)⟩ : IterRec).ckptAfter =
      some (save_progress 0 1 1 (some [0]) 7)) ∧
    (0 ≤ (0, 1).1 ∧ ((0, 1).1 = 0 → 0 + 1 ≤ (0, 1).2)) :=
  ⟨(convert_checkpoint_successor (fun _ _ => Res.ok []) ["One two three.".data] 10 16000 7 [0]
      ⟨none, none⟩ none 0 0 0 0 none).1 _ (by decide) rfl,
    (convert_checkpoint_successor (fun _ _ => Res.ok []) ["One two three.".data] 10 16000 7 [0]
      ⟨none, none⟩ none 0 0 0 0 none).2.2 (0, 1) (by decide)⟩

/-- C2: in every chunk iteration, if the synthesis or the append raises, the
checkpoint file's content after the iteration equals its content before, and
the loop still visits every remaining chunk position (the attempted
`(chapter, chunk_num)` pairs are oracle-independent: always `expectedPairs`);
the checkpoint advances only on append success. -/
theorem convert_no_checkpoint_on_failure (oracle : ℕ → ℕ → Res) (chapters : List (List Char))
    (maxW rate now : ℕ) (sel : List ℕ) (st : OState) :
    (∀ e ∈ (convert_text_to_audio oracle chapters maxW rate now sel st).2,
        e.success = false → e.ckptAfter = e.ckptBefore) ∧
    tracePairs (convert_text_to_audio oracle chapters maxW rate now sel st).2 =
      expectedPairs chapters maxW
        (((load_progress st.ckptFile).map Chk.chapter_index).getD 0)
        (((load_progress st.ckptFile).map Chk.chunk_index).getD 0) :=
  ⟨fun e he hs => (convert_mem oracle chapters maxW rate now sel st e he).2.2 hs,
    convert_pairs oracle chapters maxW rate now sel st⟩

theorem convert_no_checkpoint_on_failure_witness :
    (⟨0, 1, 1, true, false, none, none⟩ : IterRec).ckptAfter =
      (⟨0, 1, 1, true, false, none, none⟩ : IterRec).ckptBefore :=
  (convert_no_checkpoint_on_failure (fun _ _ => Res.synthErr) ["One two three.".data]
      10 16000 7 [0] ⟨none, none⟩).1 _ (by decide) rfl

/-- C6, counterexample: in the full run model (chapter-selection phase
included), a run that starts with no checkpoint and no pre-existing output
file still processes its very first chunk with `is_first_chunk = false` —
the selection phase has already saved a progress record, so `not progress`
at `audio_generator.py:171` is false — refuting that the appender is invoked
with isFirstChunk = true for the very first chunk of such a run.  Moreover a
run with no checkpoint but a pre-existing 1-sample output file appends to
that file (final sample count 1 = 1 old + 0 new): no overwrite happens. -/
theorem convert_full_is_first_counterexample :
    ((convert_text_to_audio_full (fun _ _ => Res.ok []) ["One two three.".data] 10 16000 7
        false [0] ⟨none, none⟩).2.map IterRec.isFirst = [false]) ∧
    ((convert_text_to_audio_full (fun _ _ => Res.ok []) ["One two three.".data] 10 16000 7
        false [0] ⟨some ⟨[0], 16000⟩, none⟩).1.output.map fun f => f.samples.length) =
      some 1 := by
  constructor
  · decide
  · decide

/-- C6, amended: in every run of the full orchestrator the appender is never
invoked with `is_first_chunk = true`: both chapter-selection paths persist a
checkpoint before the main loop, so the `not progress` conjunct of
`is_first_chunk` is always false.  The very first chunk of a fresh run is
written through the appender's missing-file branch instead, and the
fresh-file overwrite branch is never taken — in particular never when a
resumable checkpoint applies or a prior output file exists. -/
theorem convert_full_is_first_never (oracle : ℕ → ℕ → Res) (chapters : List (List Char))
    (maxW rate now : ℕ) (reselect : Bool) (userSel : List ℕ) (st : OState) :
    ∀ e ∈ (convert_text_to_audio_full oracle chapters maxW rate now reselect userSel st).2,
      e.isFirst = false := by
  intro e he
  simp only [convert_text_to_audio_full] at he
  by_cases hC : reselect = true ∨ selectionOf (load_progress st.ckptFile) = none ∨
      selectionOf (load_progress st.ckptFile) = some []
  · rw [if_pos hC] at he
    rw [(convert_mem _ _ _ _ _ _ _ e he).1]
    simp [load_progress, save_progress]
  · rw [if_neg hC] at he
    rw [(convert_mem _ _ _ _ _ _ _ e he).1]
    push_neg at hC
    obtain ⟨-, h2, -⟩ := hC
    cases hl : load_progress st.ckptFile with
    | none => simp [hl, selectionOf] at h2
    | some p => simp [hl]

theorem convert_full_is_first_never_witness :
    (⟨0, 1, 1, false, true, some (save_progress 0 0 0 (some [0]) 7),
        some (save_progress 0 1 1 (some [0]) 7)⟩ : IterRec).isFirst = false :=
  convert_full_is_first_never (fun _ _ => Res.ok []) ["One two three.".data] 10 16000 7
    false [0] ⟨none, none⟩ _ (by decide)

end EpubTTS
